import Mathlib

/-!
Shallow embedding of the `train_sim` C sources (`summation.c`, the
`run_sim` / `run_sim_openmp` pipelines) over exact rational arithmetic.
`double` values are modelled as `ℚ`, `int32_t` loop counters as `ℕ`
(the CLI layer validates `step`, `iterations`, `threads` to be ≥ 1 and
table lengths fit easily in 32 bits for the inputs considered), and the
`exit(EXIT_FAILURE)` path of `get_lut_index` as `none` in the `Option`
monad.  Heap state that the pipelines mutate (the velocity lookup table)
is threaded explicitly; the freshly `malloc`ed, uninitialised contents of
that table appear as an arbitrary `garbage` list parameter so that no
theorem can silently depend on uninitialised memory.
-/

namespace TrainSim

/-- The C cast `(int32_t)x`: truncation of a rational toward zero. -/
def ratTrunc (x : ℚ) : ℤ := if 0 ≤ x then ⌊x⌋ else -⌊-x⌋

/-- `get_lut_index` from `summation.c`: bounds-checked read of
`lut->lut[index]`; the out-of-bounds `fprintf`+`exit` branch is `none`. -/
def get_lut_index (lut : List ℚ) (index : ℤ) : Option ℚ :=
  if index < 0 ∨ (lut.length : ℤ) ≤ index then none
  else lut[index.toNat]?

/-- `calc_linear_interpolation` from `summation.c`.  For integer `x` the
value is read directly; otherwise `x0_index = (int32_t)x` (truncation),
`x1_index = x0_index + 1`, and the result is
`y0 + (x - x0) * (y1 - y0)` (unit spacing). -/
def calc_linear_interpolation (lut : List ℚ) (x : ℚ) : Option ℚ :=
  if (⌊x⌋ : ℚ) = x then
    get_lut_index lut (ratTrunc x)
  else
    let x0_index : ℤ := ratTrunc x
    let x1_index : ℤ := x0_index + 1
    let x0 : ℚ := (x0_index : ℚ)
    do
      let y0 ← get_lut_index lut x0_index
      let y1 ← get_lut_index lut x1_index
      pure (y0 + (x - x0) * (y1 - y0))

/-- `left_riemann` from `summation.c`. -/
def left_riemann (lower upper : ℚ) (iterations : ℕ) (cb : ℚ → Option ℚ) :
    Option ℚ := do
  let step := (upper - lower) / (iterations : ℚ)
  let sum ← (List.range iterations).foldlM
    (fun (sum : ℚ) (iter : ℕ) => do
      let v ← cb (lower + (iter : ℚ) * step)
      pure (sum + v)) (0 : ℚ)
  pure (step * sum)

/-- `mid_riemann` from `summation.c`. -/
def mid_riemann (lower upper : ℚ) (iterations : ℕ) (cb : ℚ → Option ℚ) :
    Option ℚ := do
  let step := (upper - lower) / (iterations : ℚ)
  let half_step := step / 2
  let sum ← (List.range iterations).foldlM
    (fun (sum : ℚ) (iter : ℕ) => do
      let v ← cb ((lower + (iter : ℚ) * step) + half_step)
      pure (sum + v)) (0 : ℚ)
  pure (step * sum)

/-- `right_riemann` from `summation.c`. -/
def right_riemann (lower upper : ℚ) (iterations : ℕ) (cb : ℚ → Option ℚ) :
    Option ℚ := do
  let step := (upper - lower) / (iterations : ℚ)
  let sum ← (List.range iterations).foldlM
    (fun (sum : ℚ) (iter : ℕ) => do
      let v ← cb (lower + ((iter : ℚ) + 1) * step)
      pure (sum + v)) (0 : ℚ)
  pure (step * sum)

/-- `trapezoidal` from `summation.c`. -/
def trapezoidal (lower upper : ℚ) (iterations : ℕ) (cb : ℚ → Option ℚ) :
    Option ℚ := do
  let step := (upper - lower) / (iterations : ℚ)
  let f0 ← cb lower
  let f1 ← cb upper
  let sum ← (List.range' 1 (iterations - 1)).foldlM
    (fun (sum : ℚ) (iter : ℕ) => do
      let v ← cb (lower + (iter : ℚ) * step)
      pure (sum + v)) ((f0 + f1) / 2)
  pure (step * sum)

/-- `simpsons` from `summation.c`; note the loop runs `iter = 0 .. iterations`
inclusive and weights endpoints 1, odd interior points 4, even interior
points 2, without requiring `iterations` to be even. -/
def simpsons (lower upper : ℚ) (iterations : ℕ) (cb : ℚ → Option ℚ) :
    Option ℚ := do
  let step := (upper - lower) / (iterations : ℚ)
  let sum ← (List.range (iterations + 1)).foldlM
    (fun (sum : ℚ) (iter : ℕ) => do
      let res ← cb (lower + (iter : ℚ) * step)
      pure (sum + (if iter = 0 ∨ iter = iterations then res
        else if iter % 2 = 1 then 4 * res else 2 * res))) (0 : ℚ)
  pure (step * sum / 3)

/-- `enum ALGO` from `args.h`. -/
inductive ALGO
  | LEFT_RIEMANN
  | MID_RIEMANN
  | RIGHT_RIEMANN
  | TRAPEZOIDAL
  | SIMPSONS
  deriving DecidableEq

/-- The `switch (args->algo)` dispatch selecting `sum_cb` in both
`run_sim` and `run_sim_openmp`. -/
def select_summation : ALGO → ℚ → ℚ → ℕ → (ℚ → Option ℚ) → Option ℚ
  | ALGO.LEFT_RIEMANN => left_riemann
  | ALGO.MID_RIEMANN => mid_riemann
  | ALGO.RIGHT_RIEMANN => right_riemann
  | ALGO.TRAPEZOIDAL => trapezoidal
  | ALGO.SIMPSONS => simpsons

/-- The two lookup tables live during a pipeline run: the caller's
acceleration table `lut` and the `malloc`ed velocity table `vel_lut`.
They are distinct allocations in the C code, hence distinct fields. -/
structure sim_tables where
  accel : List ℚ
  vel : List ℚ
  deriving DecidableEq

/-- Body of one benchmark iteration of `run_sim` (sequential pipeline):
the velocity derivation loop accumulating `vel_final` and writing
`vel_lut.lut[sec]`, followed by the position accumulation loop.  Returns
the tables together with `vel_final` and `pos_final`. -/
def sim_iteration (algo : ALGO) (step : ℕ) (st : sim_tables) :
    Option (sim_tables × ℚ × ℚ) := do
  let velr ← (List.range' 1 (st.accel.length - 1)).foldlM
    (fun (p : sim_tables × ℚ) (sec : ℕ) => do
      let d ← select_summation algo ((sec : ℚ) - 1) (sec : ℚ) step
        (calc_linear_interpolation p.1.accel)
      pure (sim_tables.mk p.1.accel (p.1.vel.set sec (p.2 + d)), p.2 + d))
    (st, 0)
  let pos_final ← (List.range' 1 (velr.1.vel.length - 1)).foldlM
    (fun (pos : ℚ) (sec : ℕ) => do
      let d ← select_summation algo ((sec : ℚ) - 1) (sec : ℚ) step
        (calc_linear_interpolation velr.1.vel)
      pure (pos + d)) (0 : ℚ)
  pure (velr.1, velr.2, pos_final)

/-- `run_sim` from the sequential pipeline: the velocity table is
allocated once (`garbage` models its uninitialised `malloc` contents),
`vel_lut.lut[0] = 0.0` is set once, and the iteration body runs
`iterations` times reusing the same buffer; the last iteration's
`vel_final` / `pos_final` are the reported results. -/
def run_sim (algo : ALGO) (step iterations : ℕ) (accel garbage : List ℚ) :
    Option (sim_tables × ℚ × ℚ) :=
  (List.range iterations).foldlM
    (fun (p : sim_tables × ℚ × ℚ) _c => sim_iteration algo step p.1)
    (sim_tables.mk accel (garbage.set 0 0), 0, 0)

/-- Body of one benchmark iteration of `run_sim_openmp`: phase A writes
each per-interval integral into its own slot (the `omp parallel for`
loop, modelled in index order — in exact arithmetic the schedule is
irrelevant because the writes target disjoint slots), phase B is the
sequential prefix sum over `vel_lut`, and phase C the position reduction
(`reduction(+:pos_final)`, modelled in index order). -/
def sim_iteration_openmp (algo : ALGO) (threads step : ℕ) (st : sim_tables) :
    Option (sim_tables × ℚ × ℚ) := do
  let stA ← (List.range' 1 (st.accel.length - 1)).foldlM
    (fun (t : sim_tables) (sec : ℕ) => do
      let d ← select_summation algo ((sec : ℚ) - 1) (sec : ℚ) step
        (calc_linear_interpolation t.accel)
      pure (sim_tables.mk t.accel (t.vel.set sec d))) st
  let scan := (List.range stA.vel.length).foldl
    (fun (p : sim_tables × ℚ) index =>
      (sim_tables.mk p.1.accel (p.1.vel.set index (p.2 + p.1.vel.getD index 0)),
        p.2 + p.1.vel.getD index 0)) (stA, 0)
  let pos_final ← (List.range' 1 (scan.1.vel.length - 1)).foldlM
    (fun (pos : ℚ) (sec : ℕ) => do
      let d ← select_summation algo ((sec : ℚ) - 1) (sec : ℚ) step
        (calc_linear_interpolation scan.1.vel)
      pure (pos + d)) (0 : ℚ)
  pure (scan.1, scan.2, pos_final)

/-- `run_sim_openmp`: same benchmark-loop structure as `run_sim`; the
`threads` argument only feeds the `num_threads` clauses and cannot affect
the exact-arithmetic result. -/
def run_sim_openmp (algo : ALGO) (threads step iterations : ℕ)
    (accel garbage : List ℚ) : Option (sim_tables × ℚ × ℚ) :=
  (List.range iterations).foldlM
    (fun (p : sim_tables × ℚ × ℚ) _c => sim_iteration_openmp algo threads step p.1)
    (sim_tables.mk accel (garbage.set 0 0), 0, 0)

/-! ### Generic fold lemmas -/

/-- A monadic `foldlM` over `Option` whose body always succeeds (on states
satisfying an invariant `I`) equals the corresponding pure `foldl`. -/
theorem foldlM_some_inv {σ α : Type} (I : σ → Prop) (F : σ → α → Option σ)
    (G : σ → α → σ) :
    ∀ (xs : List α) (s0 : σ), I s0 →
      (∀ s a, a ∈ xs → I s → F s a = some (G s a)) →
      (∀ s a, a ∈ xs → I s → I (G s a)) →
      xs.foldlM F s0 = some (xs.foldl G s0)
  | [], _, _, _, _ => rfl
  | x :: tl, s0, h0, hG, hI => by
    rw [List.foldlM_cons, List.foldl_cons, hG s0 x (List.mem_cons_self x tl) h0]
    have htl := foldlM_some_inv I F G tl (G s0 x) (hI s0 x (List.mem_cons_self x tl) h0)
      (fun s a ha hs => hG s a (List.mem_cons_of_mem _ ha) hs)
      (fun s a ha hs => hI s a (List.mem_cons_of_mem _ ha) hs)
    simpa using htl

/-- A left fold that only accumulates additions is the initial value plus
the list sum. -/
theorem foldl_add_eq_sum (g : ℕ → ℚ) :
    ∀ (xs : List ℕ) (init : ℚ),
      xs.foldl (fun acc i => acc + g i) init = init + (xs.map g).sum
  | [], init => by simp
  | x :: tl, init => by
    rw [List.foldl_cons, foldl_add_eq_sum g tl (init + g x)]
    simp [add_assoc]

/-- Repeatedly `set` positions drawn from `xs` to position-determined
values `f`. -/
def setList (L : List ℚ) (f : ℕ → ℚ) (xs : List ℕ) : List ℚ :=
  xs.foldl (fun l i => l.set i (f i)) L

theorem setList_nil (L : List ℚ) (f : ℕ → ℚ) : setList L f [] = L := rfl

theorem setList_append (L : List ℚ) (f : ℕ → ℚ) (xs ys : List ℕ) :
    setList L f (xs ++ ys) = setList (setList L f xs) f ys := by
  simp [setList, List.foldl_append]

theorem setList_length (f : ℕ → ℚ) :
    ∀ (xs : List ℕ) (L : List ℚ), (setList L f xs).length = L.length
  | [], _ => rfl
  | x :: tl, L => by
    show (setList (L.set x (f x)) f tl).length = L.length
    rw [setList_length f tl, List.length_set]

theorem setList_getD (f : ℕ → ℚ) :
    ∀ (xs : List ℕ) (L : List ℚ) (i : ℕ),
      (setList L f xs).getD i 0 =
        if i ∈ xs ∧ i < L.length then f i else L.getD i 0
  | [], L, i => by simp [setList]
  | x :: tl, L, i => by
    show (setList (L.set x (f x)) f tl).getD i 0 = _
    rw [setList_getD f tl (L.set x (f x)) i, List.length_set]
    by_cases htl : i ∈ tl ∧ i < L.length
    · rw [if_pos htl,
        if_pos (And.intro (List.mem_cons_of_mem _ (And.left htl)) (And.right htl))]
    · rw [if_neg htl]
      by_cases hx : i = x
      · subst hx
        by_cases hlen : i < L.length
        · have h1 : (L.set i (f i)).getD i 0 = f i := by
            simp [List.getD_eq_getElem?_getD, List.getElem?_set, hlen]
          rw [h1, if_pos (And.intro (List.mem_cons_self i tl) hlen)]
        · rw [List.set_eq_of_length_le (Nat.le_of_not_lt hlen),
            if_neg (fun h => hlen (And.right h))]
      · have hxi : ¬x = i := fun h => hx (Eq.symm h)
        have h2 : (L.set x (f x)).getD i 0 = L.getD i 0 := by
          simp [List.getD_eq_getElem?_getD, List.getElem?_set, hxi]
        have hmem : ¬(i ∈ x :: tl ∧ i < L.length) := by
          intro h
          rcases List.mem_cons.mp (And.left h) with h1 | h1
          · exact hx h1
          · exact htl (And.intro h1 (And.right h))
        rw [h2, if_neg hmem]

/-! ### Sample-point bounds and rule evaluation lemmas -/

theorem option_eq_some_getD {o : Option ℚ} (h : o.isSome) : o = some (o.getD 0) := by
  cases o with
  | none => simp at h
  | some v => rfl

/-- Every quadrature sample point `lower + c · h` with `0 ≤ c ≤ iterations`
lies inside `[lower, upper]`. -/
theorem sample_point_mem (lower upper : ℚ) (it : ℕ) (hit : 1 ≤ it)
    (hle : lower ≤ upper) (c : ℚ) (hc0 : 0 ≤ c) (hcit : c ≤ (it : ℚ)) :
    lower ≤ lower + c * ((upper - lower) / (it : ℚ)) ∧
      lower + c * ((upper - lower) / (it : ℚ)) ≤ upper := by
  have hq : (0 : ℚ) < (it : ℚ) := by
    exact_mod_cast Nat.lt_of_lt_of_le Nat.zero_lt_one hit
  have hh : 0 ≤ (upper - lower) / (it : ℚ) :=
    div_nonneg (sub_nonneg.mpr hle) (le_of_lt hq)
  constructor
  · have := mul_nonneg hc0 hh
    linarith
  · have h1 : c * ((upper - lower) / (it : ℚ)) ≤
        (it : ℚ) * ((upper - lower) / (it : ℚ)) :=
      mul_le_mul_of_nonneg_right hcit hh
    have h2 : (it : ℚ) * ((upper - lower) / (it : ℚ)) = upper - lower := by
      field_simp
    linarith

theorem left_riemann_eval (lower upper : ℚ) (it : ℕ) (cb : ℚ → Option ℚ)
    (hit : 1 ≤ it) (hle : lower ≤ upper)
    (hcb : ∀ x : ℚ, lower ≤ x → x ≤ upper → (cb x).isSome) :
    left_riemann lower upper it cb =
      some (((upper - lower) / (it : ℚ)) *
        ((List.range it).map
          (fun i : ℕ =>
            (cb (lower + (i : ℚ) * ((upper - lower) / (it : ℚ)))).getD 0)).sum) := by
  have hsome : ∀ i : ℕ, i ∈ List.range it →
      cb (lower + (i : ℚ) * ((upper - lower) / (it : ℚ))) =
        some ((cb (lower + (i : ℚ) * ((upper - lower) / (it : ℚ)))).getD 0) := by
    intro i hi
    have hi' : (i : ℚ) ≤ (it : ℚ) := by
      exact_mod_cast Nat.le_of_lt (List.mem_range.mp hi)
    have hb := sample_point_mem lower upper it hit hle (i : ℚ) (by positivity) hi'
    exact option_eq_some_getD (hcb _ hb.1 hb.2)
  simp only [left_riemann]
  rw [foldlM_some_inv (fun _ => True) _
    (fun s (iter : ℕ) =>
      s + (cb (lower + (iter : ℚ) * ((upper - lower) / (it : ℚ)))).getD 0)
    (List.range it) 0 trivial
    (fun s a ha _ => by rw [hsome a ha]; rfl)
    (fun _ _ _ _ => trivial)]
  rw [foldl_add_eq_sum]
  simp

theorem mid_riemann_eval (lower upper : ℚ) (it : ℕ) (cb : ℚ → Option ℚ)
    (hit : 1 ≤ it) (hle : lower ≤ upper)
    (hcb : ∀ x : ℚ, lower ≤ x → x ≤ upper → (cb x).isSome) :
    mid_riemann lower upper it cb =
      some (((upper - lower) / (it : ℚ)) *
        ((List.range it).map
          (fun i : ℕ =>
            (cb ((lower + (i : ℚ) * ((upper - lower) / (it : ℚ))) +
              ((upper - lower) / (it : ℚ)) / 2)).getD 0)).sum) := by
  have hsome : ∀ i : ℕ, i ∈ List.range it →
      cb ((lower + (i : ℚ) * ((upper - lower) / (it : ℚ))) +
          ((upper - lower) / (it : ℚ)) / 2) =
        some ((cb ((lower + (i : ℚ) * ((upper - lower) / (it : ℚ))) +
          ((upper - lower) / (it : ℚ)) / 2)).getD 0) := by
    intro i hi
    have hi' : (i : ℚ) + 1 / 2 ≤ (it : ℚ) := by
      have : (i : ℚ) + 1 ≤ (it : ℚ) := by
        exact_mod_cast List.mem_range.mp hi
      linarith
    have hb := sample_point_mem lower upper it hit hle ((i : ℚ) + 1 / 2)
      (by positivity) hi'
    have hpt : lower + ((i : ℚ) + 1 / 2) * ((upper - lower) / (it : ℚ)) =
        (lower + (i : ℚ) * ((upper - lower) / (it : ℚ))) +
          ((upper - lower) / (it : ℚ)) / 2 := by ring
    rw [hpt] at hb
    exact option_eq_some_getD (hcb _ hb.1 hb.2)
  simp only [mid_riemann]
  rw [foldlM_some_inv (fun _ => True) _
    (fun s (iter : ℕ) =>
      s + (cb ((lower + (iter : ℚ) * ((upper - lower) / (it : ℚ))) +
        ((upper - lower) / (it : ℚ)) / 2)).getD 0)
    (List.range it) 0 trivial
    (fun s a ha _ => by rw [hsome a ha]; rfl)
    (fun _ _ _ _ => trivial)]
  rw [foldl_add_eq_sum]
  simp

theorem right_riemann_eval (lower upper : ℚ) (it : ℕ) (cb : ℚ → Option ℚ)
    (hit : 1 ≤ it) (hle : lower ≤ upper)
    (hcb : ∀ x : ℚ, lower ≤ x → x ≤ upper → (cb x).isSome) :
    right_riemann lower upper it cb =
      some (((upper - lower) / (it : ℚ)) *
        ((List.range it).map
          (fun i : ℕ =>
            (cb (lower + ((i : ℚ) + 1) * ((upper - lower) / (it : ℚ)))).getD 0)).sum) := by
  have hsome : ∀ i : ℕ, i ∈ List.range it →
      cb (lower + ((i : ℚ) + 1) * ((upper - lower) / (it : ℚ))) =
        some ((cb (lower + ((i : ℚ) + 1) * ((upper - lower) / (it : ℚ)))).getD 0) := by
    intro i hi
    have hi' : (i : ℚ) + 1 ≤ (it : ℚ) := by
      exact_mod_cast List.mem_range.mp hi
    have hb := sample_point_mem lower upper it hit hle ((i : ℚ) + 1)
      (by positivity) hi'
    exact option_eq_some_getD (hcb _ hb.1 hb.2)
  simp only [right_riemann]
  rw [foldlM_some_inv (fun _ => True) _
    (fun s (iter : ℕ) =>
      s + (cb (lower + ((iter : ℚ) + 1) * ((upper - lower) / (it : ℚ)))).getD 0)
    (List.range it) 0 trivial
    (fun s a ha _ => by rw [hsome a ha]; rfl)
    (fun _ _ _ _ => trivial)]
  rw [foldl_add_eq_sum]
  simp

theorem trapezoidal_eval (lower upper : ℚ) (it : ℕ) (cb : ℚ → Option ℚ)
    (hit : 1 ≤ it) (hle : lower ≤ upper)
    (hcb : ∀ x : ℚ, lower ≤ x → x ≤ upper → (cb x).isSome) :
    trapezoidal lower upper it cb =
      some (((upper - lower) / (it : ℚ)) *
        (((cb lower).getD 0 + (cb upper).getD 0) / 2 +
          ((List.range' 1 (it - 1)).map
            (fun i : ℕ =>
              (cb (lower + (i : ℚ) * ((upper - lower) / (it : ℚ)))).getD 0)).sum)) := by
  have hsome : ∀ i : ℕ, i ∈ List.range' 1 (it - 1) →
      cb (lower + (i : ℚ) * ((upper - lower) / (it : ℚ))) =
        some ((cb (lower + (i : ℚ) * ((upper - lower) / (it : ℚ)))).getD 0) := by
    intro i hi
    have hi2 := (List.mem_range'_1.mp hi).2
    have hi' : (i : ℚ) ≤ (it : ℚ) := by
      have : i ≤ it := by omega
      exact_mod_cast this
    have hb := sample_point_mem lower upper it hit hle (i : ℚ) (by positivity) hi'
    exact option_eq_some_getD (hcb _ hb.1 hb.2)
  obtain ⟨v0, hv0⟩ := Option.isSome_iff_exists.mp (hcb lower le_rfl hle)
  obtain ⟨v1, hv1⟩ := Option.isSome_iff_exists.mp (hcb upper hle le_rfl)
  simp only [trapezoidal, hv0, hv1, Option.bind_eq_bind, Option.some_bind]
  rw [foldlM_some_inv (fun _ => True) _
    (fun s (iter : ℕ) =>
      s + (cb (lower + (iter : ℚ) * ((upper - lower) / (it : ℚ)))).getD 0)
    (List.range' 1 (it - 1)) ((v0 + v1) / 2) trivial
    (fun s a ha _ => by rw [hsome a ha]; rfl)
    (fun _ _ _ _ => trivial)]
  rw [foldl_add_eq_sum]
  simp [hv0, hv1]

theorem simpsons_eval (lower upper : ℚ) (it : ℕ) (cb : ℚ → Option ℚ)
    (hit : 1 ≤ it) (hle : lower ≤ upper)
    (hcb : ∀ x : ℚ, lower ≤ x → x ≤ upper → (cb x).isSome) :
    simpsons lower upper it cb =
      some (((upper - lower) / (it : ℚ)) *
        ((List.range (it + 1)).map
          (fun i : ℕ =>
            if i = 0 ∨ i = it then
              (cb (lower + (i : ℚ) * ((upper - lower) / (it : ℚ)))).getD 0
            else if i % 2 = 1 then
              4 * (cb (lower + (i : ℚ) * ((upper - lower) / (it : ℚ)))).getD 0
            else
              2 * (cb (lower + (i : ℚ) * ((upper - lower) / (it : ℚ)))).getD 0)).sum
        / 3) := by
  have hsome : ∀ i : ℕ, i ∈ List.range (it + 1) →
      cb (lower + (i : ℚ) * ((upper - lower) / (it : ℚ))) =
        some ((cb (lower + (i : ℚ) * ((upper - lower) / (it : ℚ)))).getD 0) := by
    intro i hi
    have hi' : (i : ℚ) ≤ (it : ℚ) := by
      have : i ≤ it := by
        have := List.mem_range.mp hi
        omega
      exact_mod_cast this
    have hb := sample_point_mem lower upper it hit hle (i : ℚ) (by positivity) hi'
    exact option_eq_some_getD (hcb _ hb.1 hb.2)
  simp only [simpsons]
  rw [foldlM_some_inv (fun _ => True) _
    (fun s (iter : ℕ) =>
      s + (if iter = 0 ∨ iter = it then
          (cb (lower + (iter : ℚ) * ((upper - lower) / (it : ℚ)))).getD 0
        else if iter % 2 = 1 then
          4 * (cb (lower + (iter : ℚ) * ((upper - lower) / (it : ℚ)))).getD 0
        else
          2 * (cb (lower + (iter : ℚ) * ((upper - lower) / (it : ℚ)))).getD 0))
    (List.range (it + 1)) 0 trivial
    (fun s a ha _ => by
      rw [hsome a ha]
      simp only [Option.some_bind, Option.getD_some]
      split <;> rfl)
    (fun _ _ _ _ => trivial)]
  rw [foldl_add_eq_sum]
  simp

/-! ### Closed forms for the sums appearing in the quadrature rules -/

theorem sum_map_range_const (k : ℚ) :
    ∀ n : ℕ, ((List.range n).map (fun _ : ℕ => k)).sum = (n : ℚ) * k
  | 0 => by simp
  | n + 1 => by
    rw [List.range_succ, List.map_append, List.sum_append, sum_map_range_const k n]
    push_cast
    simp
    ring

theorem sum_map_range'_const (k : ℚ) :
    ∀ n : ℕ, ((List.range' 1 n).map (fun _ : ℕ => k)).sum = (n : ℚ) * k
  | 0 => by simp
  | n + 1 => by
    rw [List.range'_concat, List.map_append, List.sum_append, sum_map_range'_const k n]
    push_cast
    simp
    ring

theorem sum_map_range'_linear (c d : ℚ) :
    ∀ n : ℕ, ((List.range' 1 n).map (fun i : ℕ => c + d * (i : ℚ))).sum =
      (n : ℚ) * c + d * ((n : ℚ) * ((n : ℚ) + 1)) / 2
  | 0 => by simp
  | n + 1 => by
    rw [List.range'_concat, List.map_append, List.sum_append,
      sum_map_range'_linear c d n]
    push_cast
    simp
    ring

/-- The interior part of an (even) composite Simpson sum applied to a
linear function of the index. -/
theorem sum_parity_interior (c d : ℚ) :
    ∀ mm : ℕ,
      ((List.range' 1 (2 * mm + 1)).map
        (fun i : ℕ =>
          if i % 2 = 1 then 4 * (c + d * (i : ℚ)) else 2 * (c + d * (i : ℚ)))).sum =
      (6 * (mm : ℚ) + 4) * c + (6 * (mm : ℚ) ^ 2 + 10 * (mm : ℚ) + 4) * d
  | 0 => by
    norm_num [List.range']
    ring
  | mm + 1 => by
    have h1 : 2 * (mm + 1) + 1 = (2 * mm + 2) + 1 := by omega
    have h2 : 2 * mm + 2 = (2 * mm + 1) + 1 := by omega
    rw [h1, List.range'_concat, h2, List.range'_concat,
      List.map_append, List.map_append, List.sum_append, List.sum_append,
      sum_parity_interior c d mm]
    have e1 : 1 + 1 * (2 * mm + 1) = 2 * mm + 2 := by omega
    have e2 : 1 + 1 * (2 * mm + 2) = 2 * mm + 3 := by omega
    rw [e1, e2]
    have p1 : (2 * mm + 2) % 2 = 0 := by omega
    have p2 : (2 * mm + 3) % 2 = 1 := by omega
    simp only [List.map_cons, List.map_nil, List.sum_cons, List.sum_nil, p1, p2]
    norm_num
    ring

/-- Splitting an (even) composite Simpson weighted sum into the two
endpoints and the interior. -/
theorem simpsons_sum_split (m : ℕ) (g : ℕ → ℚ) :
    ((List.range (2 * m + 2 + 1)).map
      (fun i : ℕ =>
        if i = 0 ∨ i = 2 * m + 2 then g i
        else if i % 2 = 1 then 4 * g i else 2 * g i)).sum =
    g 0 +
      ((List.range' 1 (2 * m + 1)).map
        (fun i : ℕ => if i % 2 = 1 then 4 * g i else 2 * g i)).sum +
      g (2 * m + 2) := by
  have h0 : List.range (2 * m + 2 + 1) = 0 :: List.range' 1 (2 * m + 2) := by
    rw [List.range_eq_range', List.range'_succ]
  have h1 : 2 * m + 2 = (2 * m + 1) + 1 := by omega
  have h2 : List.range' 1 (2 * m + 2) =
      List.range' 1 (2 * m + 1) ++ [2 * m + 2] := by
    rw [h1, List.range'_concat]
    have e1 : 1 + 1 * (2 * m + 1) = 2 * m + 2 := by omega
    rw [e1]
  rw [h0, h2]
  simp only [List.map_cons, List.map_append, List.map_nil, List.sum_cons,
    List.sum_append, List.sum_nil]
  have hint : (List.range' 1 (2 * m + 1)).map
      (fun i : ℕ =>
        if i = 0 ∨ i = 2 * m + 2 then g i
        else if i % 2 = 1 then 4 * g i else 2 * g i) =
      (List.range' 1 (2 * m + 1)).map
        (fun i : ℕ => if i % 2 = 1 then 4 * g i else 2 * g i) := by
    apply List.map_congr_left
    intro i hi
    have hmem := List.mem_range'_1.mp hi
    have : ¬(i = 0 ∨ i = 2 * m + 2) := by omega
    rw [if_neg this]
  rw [hint]
  simp only [eq_self_iff_true, true_or, or_true, if_true, add_zero]
  ring

/-! ### Table access and interpolation characterization -/

theorem cast_pos_of_one_le {n : ℕ} (hn : 1 ≤ n) : (0 : ℚ) < (n : ℚ) := by
  exact_mod_cast Nat.lt_of_lt_of_le Nat.zero_lt_one hn

theorem get_lut_index_eq_some (lut : List ℚ) (index : ℤ) (h0 : 0 ≤ index)
    (h1 : index < (lut.length : ℤ)) :
    get_lut_index lut index = some (lut.getD index.toNat 0) := by
  unfold get_lut_index
  rw [if_neg (by rintro (h | h) <;> omega)]
  have hlt : index.toNat < lut.length := by omega
  rw [List.getElem?_eq_getElem hlt]
  simp [List.getD_eq_getElem?_getD, List.getElem?_eq_getElem hlt]

theorem get_lut_index_eq_none (lut : List ℚ) (index : ℤ)
    (h : index < 0 ∨ (lut.length : ℤ) ≤ index) :
    get_lut_index lut index = none := by
  unfold get_lut_index
  rw [if_pos h]

theorem ratTrunc_of_nonneg {x : ℚ} (h : 0 ≤ x) : ratTrunc x = ⌊x⌋ := if_pos h

theorem calc_interp_int (lut : List ℚ) (x : ℚ) (hint : (⌊x⌋ : ℚ) = x) :
    calc_linear_interpolation lut x = get_lut_index lut (ratTrunc x) := by
  simp only [calc_linear_interpolation, if_pos hint]

/-- Non-integer `x` with both truncated indices in range: the interpolated
value. -/
theorem calc_interp_frac_eq (lut : List ℚ) (x : ℚ) (hne : ¬((⌊x⌋ : ℚ) = x))
    (h0 : 0 ≤ ratTrunc x) (h1 : ratTrunc x + 1 < (lut.length : ℤ)) :
    calc_linear_interpolation lut x =
      some (lut.getD (ratTrunc x).toNat 0 +
        (x - ((ratTrunc x : ℤ) : ℚ)) *
          (lut.getD ((ratTrunc x).toNat + 1) 0 - lut.getD (ratTrunc x).toNat 0)) := by
  simp only [calc_linear_interpolation, if_neg hne]
  rw [get_lut_index_eq_some lut (ratTrunc x) h0 (by omega),
    get_lut_index_eq_some lut (ratTrunc x + 1) (by omega) h1]
  have e : (ratTrunc x + 1).toNat = (ratTrunc x).toNat + 1 := by omega
  rw [e]
  rfl

/-- Non-integer `x` with a truncated index out of range: the error exit. -/
theorem calc_interp_frac_none (lut : List ℚ) (x : ℚ) (hne : ¬((⌊x⌋ : ℚ) = x))
    (h : ratTrunc x < 0 ∨ (lut.length : ℤ) ≤ ratTrunc x + 1) :
    calc_linear_interpolation lut x = none := by
  simp only [calc_linear_interpolation, if_neg hne]
  rcases h with h | h
  · rw [get_lut_index_eq_none lut (ratTrunc x) (Or.inl h)]
    rfl
  · by_cases h0 : ratTrunc x < 0
    · rw [get_lut_index_eq_none lut (ratTrunc x) (Or.inl h0)]
      rfl
    · by_cases h2 : (lut.length : ℤ) ≤ ratTrunc x
      · rw [get_lut_index_eq_none lut (ratTrunc x) (Or.inr h2)]
        rfl
      · rw [get_lut_index_eq_some lut (ratTrunc x) (by omega) (by omega),
          get_lut_index_eq_none lut (ratTrunc x + 1) (Or.inr h)]
        rfl

/-- Interpolation never hits the error exit for `0 ≤ x ≤ len - 1`. -/
theorem calc_interp_isSome (lut : List ℚ) (x : ℚ) (h0 : 0 ≤ x)
    (h1 : x ≤ (lut.length : ℚ) - 1) : (calc_linear_interpolation lut x).isSome := by
  have hfl0 : 0 ≤ ⌊x⌋ := Int.le_floor.mpr (by exact_mod_cast h0)
  have htr : ratTrunc x = ⌊x⌋ := ratTrunc_of_nonneg h0
  by_cases hint : (⌊x⌋ : ℚ) = x
  · rw [calc_interp_int lut x hint, htr,
      get_lut_index_eq_some lut ⌊x⌋ hfl0 ?_]
    · simp
    · have h2 : (⌊x⌋ : ℚ) ≤ (lut.length : ℚ) - 1 := by rw [hint]; exact h1
      have h3 : ⌊x⌋ ≤ (lut.length : ℤ) - 1 := by exact_mod_cast h2
      omega
  · have hlen1 : 1 ≤ lut.length := by
      by_contra hl
      have hz : lut.length = 0 := by omega
      rw [hz] at h1
      norm_num at h1
      linarith
    have hxlt : x < (lut.length : ℚ) - 1 := by
      rcases lt_or_eq_of_le h1 with hlt | heq
      · exact hlt
      · exfalso
        apply hint
        rw [heq]
        have : ((lut.length : ℚ) - 1) = (((lut.length : ℤ) - 1 : ℤ) : ℚ) := by
          push_cast
          ring
        rw [this, Int.floor_intCast]
    have hfl : ⌊x⌋ < (lut.length : ℤ) - 1 := by
      have h3 : (⌊x⌋ : ℚ) ≤ x := Int.floor_le x
      have h4 : (⌊x⌋ : ℚ) < (lut.length : ℚ) - 1 := lt_of_le_of_lt h3 hxlt
      have h5 : (⌊x⌋ : ℚ) < (((lut.length : ℤ) - 1 : ℤ) : ℚ) := by
        push_cast
        linarith
      exact_mod_cast h5
    rw [calc_interp_frac_eq lut x hint (htr ▸ hfl0) (by rw [htr]; omega)]
    simp

/-! ### Claims C2 and C3: exactness of the quadrature rules -/

/-- C2 counterexample: with one subdivision, `simpsons` integrates the
constant integrand `f(x) = 1` over the unit interval `[0, 1]` to `2/3`,
not `1`, refuting the claim for the Simpson rule at odd subdivision
counts. -/
theorem C2_simpsons_odd_cex :
    simpsons 0 1 1 (fun _ : ℚ => some 1) = some (2 / 3) ∧
      simpsons 0 1 1 (fun _ : ℚ => some 1) ≠ some 1 := by
  constructor
  · norm_num [simpsons, List.range_succ]
  · norm_num [simpsons, List.range_succ]

/-- C2 (amended): integrating the constant integrand `f(x) = k` over a
unit interval `[a, a+1]` returns exactly `k` for `left_riemann`,
`mid_riemann`, `right_riemann` and `trapezoidal` at every subdivision
count `n ≥ 1`, and for `simpsons` at every even subdivision count. -/
theorem C2_const_integrand_exact (a k : ℚ) (n : ℕ) (hn : 1 ≤ n) :
    left_riemann a (a + 1) n (fun _ : ℚ => some k) = some k ∧
    mid_riemann a (a + 1) n (fun _ : ℚ => some k) = some k ∧
    right_riemann a (a + 1) n (fun _ : ℚ => some k) = some k ∧
    trapezoidal a (a + 1) n (fun _ : ℚ => some k) = some k ∧
    (n % 2 = 0 → simpsons a (a + 1) n (fun _ : ℚ => some k) = some k) := by
  have hn0 : (n : ℚ) ≠ 0 := ne_of_gt (cast_pos_of_one_le hn)
  have hle : a ≤ a + 1 := by linarith
  refine And.intro ?_ (And.intro ?_ (And.intro ?_ (And.intro ?_ ?_)))
  · rw [left_riemann_eval a (a + 1) n (fun _ : ℚ => some k) hn hle
      (fun x _ _ => rfl)]
    simp only [Option.getD_some]
    rw [sum_map_range_const]
    congr 1
    field_simp
  · rw [mid_riemann_eval a (a + 1) n (fun _ : ℚ => some k) hn hle
      (fun x _ _ => rfl)]
    simp only [Option.getD_some]
    rw [sum_map_range_const]
    congr 1
    field_simp
  · rw [right_riemann_eval a (a + 1) n (fun _ : ℚ => some k) hn hle
      (fun x _ _ => rfl)]
    simp only [Option.getD_some]
    rw [sum_map_range_const]
    congr 1
    field_simp
  · rw [trapezoidal_eval a (a + 1) n (fun _ : ℚ => some k) hn hle
      (fun x _ _ => rfl)]
    simp only [Option.getD_some]
    rw [sum_map_range'_const]
    have hc : ((n - 1 : ℕ) : ℚ) = (n : ℚ) - 1 := by
      rw [Nat.cast_sub hn, Nat.cast_one]
    rw [hc]
    congr 1
    field_simp
    ring
  · intro heven
    obtain ⟨m, rfl⟩ : ∃ m, n = 2 * m + 2 := ⟨n / 2 - 1, by omega⟩
    rw [simpsons_eval a (a + 1) (2 * m + 2) (fun _ : ℚ => some k) hn hle
      (fun x _ _ => rfl)]
    simp only [Option.getD_some]
    rw [simpsons_sum_split m (fun _ : ℕ => k)]
    have hmap : (List.range' 1 (2 * m + 1)).map
        (fun i : ℕ => if i % 2 = 1 then 4 * k else 2 * k) =
        (List.range' 1 (2 * m + 1)).map
          (fun i : ℕ => if i % 2 = 1 then 4 * (k + 0 * (i : ℚ))
            else 2 * (k + 0 * (i : ℚ))) := by
      apply List.map_congr_left
      intro i _
      by_cases h : i % 2 = 1 <;> simp [h]
    rw [hmap, sum_parity_interior]
    have hcast : ((2 * m + 2 : ℕ) : ℚ) = 2 * (m : ℚ) + 2 := by push_cast; ring
    rw [hcast] at hn0 ⊢
    congr 1
    field_simp
    ring

/-- C2 witness: the amended claim instantiated at `a = 0`, `k = 5`,
`n = 2`. -/
theorem C2_const_integrand_exact_witness :
    1 ≤ 2 ∧
      (left_riemann 0 (0 + 1) 2 (fun _ : ℚ => some 5) = some 5 ∧
      mid_riemann 0 (0 + 1) 2 (fun _ : ℚ => some 5) = some 5 ∧
      right_riemann 0 (0 + 1) 2 (fun _ : ℚ => some 5) = some 5 ∧
      trapezoidal 0 (0 + 1) 2 (fun _ : ℚ => some 5) = some 5 ∧
      (2 % 2 = 0 → simpsons 0 (0 + 1) 2 (fun _ : ℚ => some 5) = some 5)) :=
  And.intro (by norm_num) (C2_const_integrand_exact 0 5 2 (by norm_num))

/-- C3 counterexample: with one subdivision, `simpsons` integrates the
linear integrand `f(x) = 1·x + 0` over `[0, 1]` to `1/3`, while the true
integral is `1/2`, refuting the claim for the Simpson rule at odd
subdivision counts. -/
theorem C3_simpsons_odd_cex :
    simpsons 0 1 1 (fun x : ℚ => some (1 * x + 0)) = some (1 / 3) ∧
      simpsons 0 1 1 (fun x : ℚ => some (1 * x + 0)) ≠
        some (1 * ((1 : ℚ) ^ 2 - 0 ^ 2) / 2 + 0 * (1 - 0)) := by
  constructor
  · norm_num [simpsons, List.range_succ]
  · norm_num [simpsons, List.range_succ]

/-- C3 (amended): `trapezoidal` integrates every linear integrand
`f(x) = slope·x + intercept` exactly over any interval
`[lower, upper]` (with `lower ≤ upper`) for every subdivision count
`n ≥ 1`; `simpsons` does so for every even subdivision count. -/
theorem C3_linear_integrand_exact (lower upper slope intercept : ℚ) (n : ℕ)
    (hn : 1 ≤ n) (hle : lower ≤ upper) :
    trapezoidal lower upper n (fun x : ℚ => some (slope * x + intercept)) =
      some (slope * (upper ^ 2 - lower ^ 2) / 2 + intercept * (upper - lower)) ∧
    (n % 2 = 0 →
      simpsons lower upper n (fun x : ℚ => some (slope * x + intercept)) =
        some (slope * (upper ^ 2 - lower ^ 2) / 2 + intercept * (upper - lower))) := by
  have hn0 : (n : ℚ) ≠ 0 := ne_of_gt (cast_pos_of_one_le hn)
  constructor
  · rw [trapezoidal_eval lower upper n
      (fun x : ℚ => some (slope * x + intercept)) hn hle (fun x _ _ => rfl)]
    simp only [Option.getD_some]
    have hmap : (List.range' 1 (n - 1)).map
        (fun i : ℕ =>
          slope * (lower + (i : ℚ) * ((upper - lower) / (n : ℚ))) + intercept) =
        (List.range' 1 (n - 1)).map
          (fun i : ℕ => (slope * lower + intercept) +
            (slope * ((upper - lower) / (n : ℚ))) * (i : ℚ)) := by
      apply List.map_congr_left
      intro i _
      ring
    rw [hmap, sum_map_range'_linear]
    have hc : ((n - 1 : ℕ) : ℚ) = (n : ℚ) - 1 := by
      rw [Nat.cast_sub hn, Nat.cast_one]
    rw [hc]
    congr 1
    field_simp
    ring
  · intro heven
    obtain ⟨m, rfl⟩ : ∃ m, n = 2 * m + 2 := ⟨n / 2 - 1, by omega⟩
    rw [simpsons_eval lower upper (2 * m + 2)
      (fun x : ℚ => some (slope * x + intercept)) hn hle (fun x _ _ => rfl)]
    simp only [Option.getD_some]
    rw [simpsons_sum_split m
      (fun i : ℕ =>
        slope * (lower + (i : ℚ) * ((upper - lower) / ((2 * m + 2 : ℕ) : ℚ))) +
          intercept)]
    have hmap : (List.range' 1 (2 * m + 1)).map
        (fun i : ℕ => if i % 2 = 1 then
            4 * (slope * (lower + (i : ℚ) *
              ((upper - lower) / ((2 * m + 2 : ℕ) : ℚ))) + intercept)
          else
            2 * (slope * (lower + (i : ℚ) *
              ((upper - lower) / ((2 * m + 2 : ℕ) : ℚ))) + intercept)) =
        (List.range' 1 (2 * m + 1)).map
          (fun i : ℕ => if i % 2 = 1 then
              4 * ((slope * lower + intercept) +
                (slope * ((upper - lower) / ((2 * m + 2 : ℕ) : ℚ))) * (i : ℚ))
            else
              2 * ((slope * lower + intercept) +
                (slope * ((upper - lower) / ((2 * m + 2 : ℕ) : ℚ))) * (i : ℚ))) := by
      apply List.map_congr_left
      intro i _
      by_cases h : i % 2 = 1 <;> simp only [h, if_true, if_false] <;> ring
    rw [hmap, sum_parity_interior]
    have hcast : ((2 * m + 2 : ℕ) : ℚ) = 2 * (m : ℚ) + 2 := by push_cast; ring
    rw [hcast] at hn0 ⊢
    push_cast
    congr 1
    field_simp
    ring

/-- C3 witness: the amended claim instantiated at `lower = 0`,
`upper = 1`, `slope = 1`, `intercept = 0`, `n = 2`. -/
theorem C3_linear_integrand_exact_witness :
    (1 ≤ 2 ∧ (0 : ℚ) ≤ 1) ∧
      (trapezoidal 0 1 2 (fun x : ℚ => some (1 * x + 0)) =
        some (1 * ((1 : ℚ) ^ 2 - 0 ^ 2) / 2 + 0 * (1 - 0)) ∧
      (2 % 2 = 0 →
        simpsons 0 1 2 (fun x : ℚ => some (1 * x + 0)) =
          some (1 * ((1 : ℚ) ^ 2 - 0 ^ 2) / 2 + 0 * (1 - 0)))) :=
  And.intro (And.intro (by norm_num) (by norm_num))
    (C3_linear_integrand_exact 0 1 1 0 2 (by norm_num) (by norm_num))

/-! ### Claims C6, C8, C9: table access and interpolation -/

/-- C8: on any table of length ≥ 1, indices `-1` and `len` hit the error
exit, while indices `0` and `len - 1` return the stored samples. -/
theorem C8_get_lut_index_bounds (lut : List ℚ) (h : 1 ≤ lut.length) :
    get_lut_index lut (-1) = none ∧
    get_lut_index lut (lut.length : ℤ) = none ∧
    get_lut_index lut 0 = some (lut.getD 0 0) ∧
    get_lut_index lut ((lut.length : ℤ) - 1) =
      some (lut.getD (lut.length - 1) 0) := by
  refine And.intro ?_ (And.intro ?_ (And.intro ?_ ?_))
  · exact get_lut_index_eq_none lut (-1) (Or.inl (by norm_num))
  · exact get_lut_index_eq_none lut (lut.length : ℤ) (Or.inr le_rfl)
  · have h2 := get_lut_index_eq_some lut 0 le_rfl (by exact_mod_cast h)
    simpa using h2
  · have h2 := get_lut_index_eq_some lut ((lut.length : ℤ) - 1) (by omega)
      (by omega)
    have e : ((lut.length : ℤ) - 1).toNat = lut.length - 1 := by omega
    rw [e] at h2
    exact h2

/-- C8 witness: the bounds behaviour on the concrete table `[5]`. -/
theorem C8_get_lut_index_bounds_witness :
    1 ≤ ([(5 : ℚ)]).length ∧
      (get_lut_index [(5 : ℚ)] (-1) = none ∧
      get_lut_index [(5 : ℚ)] (([(5 : ℚ)]).length : ℤ) = none ∧
      get_lut_index [(5 : ℚ)] 0 = some (([(5 : ℚ)]).getD 0 0) ∧
      get_lut_index [(5 : ℚ)] ((([(5 : ℚ)]).length : ℤ) - 1) =
        some (([(5 : ℚ)]).getD (([(5 : ℚ)]).length - 1) 0)) :=
  And.intro (by norm_num) (C8_get_lut_index_bounds [(5 : ℚ)] (by norm_num))

/-- C9: interpolating at `i + 1/2` returns exactly the average of the two
neighbouring samples. -/
theorem C9_interp_midpoint_avg (lut : List ℚ) (i : ℕ) (h : i + 1 < lut.length) :
    calc_linear_interpolation lut ((i : ℚ) + 1 / 2) =
      some ((lut.getD i 0 + lut.getD (i + 1) 0) / 2) := by
  have hfl : ⌊(i : ℚ) + 1 / 2⌋ = (i : ℤ) := by
    apply Int.floor_eq_iff.mpr
    constructor
    · push_cast
      linarith
    · push_cast
      linarith
  have hne : ¬((⌊(i : ℚ) + 1 / 2⌋ : ℚ) = (i : ℚ) + 1 / 2) := by
    rw [hfl]
    push_cast
    intro hh
    linarith
  have htr : ratTrunc ((i : ℚ) + 1 / 2) = (i : ℤ) := by
    rw [ratTrunc_of_nonneg (by positivity), hfl]
  rw [calc_interp_frac_eq lut ((i : ℚ) + 1 / 2) hne
    (by rw [htr]; exact Int.ofNat_nonneg i)
    (by rw [htr]; exact_mod_cast h)]
  rw [htr]
  have e : ((i : ℤ)).toNat = i := Int.toNat_natCast i
  rw [e]
  congr 1
  push_cast
  ring

/-- C9 witness: the midpoint average on the concrete table `[1, 3]` at
`i = 0`. -/
theorem C9_interp_midpoint_avg_witness :
    0 + 1 < ([(1 : ℚ), 3]).length ∧
      calc_linear_interpolation [(1 : ℚ), 3] (((0 : ℕ) : ℚ) + 1 / 2) =
        some ((([(1 : ℚ), 3]).getD 0 0 + ([(1 : ℚ), 3]).getD (0 + 1) 0) / 2) :=
  And.intro (by norm_num) (C9_interp_midpoint_avg [(1 : ℚ), 3] 0 (by norm_num))

/-- C6 counterexample: `x = -1/2` is non-integer and `floor x = -1` is not
a valid index, so the claim demands an IndexError, yet
`calc_linear_interpolation` truncates toward zero, reads indices 0 and 1
of `[1, 3]`, and returns `some 0`. -/
theorem C6_interp_floor_cex :
    (⌊(-1 / 2 : ℚ)⌋ : ℚ) ≠ (-1 / 2 : ℚ) ∧ ⌊(-1 / 2 : ℚ)⌋ = -1 ∧
      calc_linear_interpolation [(1 : ℚ), 3] (-1 / 2) = some 0 := by
  refine And.intro (by norm_num) (And.intro (by norm_num) ?_)
  norm_num [calc_linear_interpolation, ratTrunc, get_lut_index]

/-- C6 (amended): for non-integer `x` the code uses truncation toward
zero (`x0 = trunc x`, which equals `floor x` only for `x > -1`); it fails
with the error exit unless both `trunc x` and `trunc x + 1` are valid
indices, and otherwise returns `y0 + (x - trunc x) * (y1 - y0)`. -/
theorem C6_interp_trunc_spec (lut : List ℚ) (x : ℚ) (hne : (⌊x⌋ : ℚ) ≠ x) :
    (0 ≤ ratTrunc x ∧ ratTrunc x + 1 < (lut.length : ℤ) →
      calc_linear_interpolation lut x =
        some (lut.getD (ratTrunc x).toNat 0 +
          (x - ((ratTrunc x : ℤ) : ℚ)) *
            (lut.getD ((ratTrunc x).toNat + 1) 0 - lut.getD (ratTrunc x).toNat 0))) ∧
    (¬(0 ≤ ratTrunc x ∧ ratTrunc x + 1 < (lut.length : ℤ)) →
      calc_linear_interpolation lut x = none) := by
  constructor
  · intro hv
    exact calc_interp_frac_eq lut x hne hv.1 hv.2
  · intro hv
    apply calc_interp_frac_none lut x hne
    omega

/-- C6 witness: the amended claim instantiated at the table `[1, 3]` and
`x = 1/2` (valid indices 0 and 1). -/
theorem C6_interp_trunc_spec_witness :
    (⌊(1 / 2 : ℚ)⌋ : ℚ) ≠ (1 / 2 : ℚ) ∧
      ((0 ≤ ratTrunc (1 / 2 : ℚ) ∧
          ratTrunc (1 / 2 : ℚ) + 1 < (([(1 : ℚ), 3]).length : ℤ) →
        calc_linear_interpolation [(1 : ℚ), 3] (1 / 2) =
          some (([(1 : ℚ), 3]).getD (ratTrunc (1 / 2 : ℚ)).toNat 0 +
            ((1 / 2 : ℚ) - ((ratTrunc (1 / 2 : ℚ) : ℤ) : ℚ)) *
              (([(1 : ℚ), 3]).getD ((ratTrunc (1 / 2 : ℚ)).toNat + 1) 0 -
                ([(1 : ℚ), 3]).getD (ratTrunc (1 / 2 : ℚ)).toNat 0))) ∧
      (¬(0 ≤ ratTrunc (1 / 2 : ℚ) ∧
          ratTrunc (1 / 2 : ℚ) + 1 < (([(1 : ℚ), 3]).length : ℤ)) →
        calc_linear_interpolation [(1 : ℚ), 3] (1 / 2) = none)) :=
  And.intro (by norm_num)
    (C6_interp_trunc_spec [(1 : ℚ), 3] (1 / 2) (by norm_num))

/-! ### Safety of a quadrature call over one unit interval -/

theorem select_summation_isSome (algo : ALGO) (lower upper : ℚ) (it : ℕ)
    (cb : ℚ → Option ℚ) (hit : 1 ≤ it) (hle : lower ≤ upper)
    (hcb : ∀ x : ℚ, lower ≤ x → x ≤ upper → (cb x).isSome) :
    (select_summation algo lower upper it cb).isSome := by
  cases algo
  · rw [select_summation, left_riemann_eval lower upper it cb hit hle hcb]
    rfl
  · rw [select_summation, mid_riemann_eval lower upper it cb hit hle hcb]
    rfl
  · rw [select_summation, right_riemann_eval lower upper it cb hit hle hcb]
    rfl
  · rw [select_summation, trapezoidal_eval lower upper it cb hit hle hcb]
    rfl
  · rw [select_summation, simpsons_eval lower upper it cb hit hle hcb]
    rfl

/-- The successful value of one per-interval quadrature call made by the
pipelines: rule `algo` over `[sec-1, sec]`, integrand interpolating `lut`. -/
def interval_integral (algo : ALGO) (step : ℕ) (lut : List ℚ) (sec : ℕ) : ℚ :=
  (select_summation algo ((sec : ℚ) - 1) (sec : ℚ) step
    (calc_linear_interpolation lut)).getD 0

theorem interval_summation_eq_some (algo : ALGO) (step : ℕ) (lut : List ℚ)
    (sec : ℕ) (hstep : 1 ≤ step) (hsec1 : 1 ≤ sec) (hsec2 : sec + 1 ≤ lut.length) :
    select_summation algo ((sec : ℚ) - 1) (sec : ℚ) step
        (calc_linear_interpolation lut) =
      some (interval_integral algo step lut sec) := by
  apply option_eq_some_getD
  have hsec1' : (1 : ℚ) ≤ (sec : ℚ) := by exact_mod_cast hsec1
  have hsec2' : (sec : ℚ) + 1 ≤ (lut.length : ℚ) := by exact_mod_cast hsec2
  apply select_summation_isSome algo ((sec : ℚ) - 1) (sec : ℚ) step
    (calc_linear_interpolation lut) hstep (by linarith)
  intro x hx1 hx2
  apply calc_interp_isSome lut x (by linarith) (by linarith)

/-! ### Closed forms for the two pipeline bodies -/

/-- Velocity accumulated by the pipelines after the intervals `1..k`. -/
def velPartial (algo : ALGO) (step : ℕ) (accel : List ℚ) (k : ℕ) : ℚ :=
  ((List.range' 1 k).map (interval_integral algo step accel)).sum

/-- The fully-written velocity table of a pipeline run. -/
def velTable (algo : ALGO) (step : ℕ) (accel : List ℚ) : List ℚ :=
  (List.range accel.length).map (velPartial algo step accel)

/-- The final position accumulated by the pipelines. -/
def posTotal (algo : ALGO) (step : ℕ) (accel : List ℚ) : ℚ :=
  ((List.range' 1 (accel.length - 1)).map
    (interval_integral algo step (velTable algo step accel))).sum

/-- The canonical outcome of one benchmark iteration of either pipeline. -/
def canonicalResult (algo : ALGO) (step : ℕ) (accel : List ℚ) :
    sim_tables × ℚ × ℚ :=
  (sim_tables.mk accel (velTable algo step accel),
    velPartial algo step accel (accel.length - 1),
    posTotal algo step accel)

theorem velPartial_zero (algo : ALGO) (step : ℕ) (accel : List ℚ) :
    velPartial algo step accel 0 = 0 := rfl

theorem velPartial_succ (algo : ALGO) (step : ℕ) (accel : List ℚ) (k : ℕ) :
    velPartial algo step accel (k + 1) =
      velPartial algo step accel k + interval_integral algo step accel (k + 1) := by
  unfold velPartial
  have e1 : 1 + 1 * k = k + 1 := by omega
  rw [List.range'_concat, e1, List.map_append, List.sum_append]
  simp

theorem velTable_length (algo : ALGO) (step : ℕ) (accel : List ℚ) :
    (velTable algo step accel).length = accel.length := by
  simp [velTable]

theorem velTable_getD (algo : ALGO) (step : ℕ) (accel : List ℚ) (i : ℕ)
    (hi : i < accel.length) :
    (velTable algo step accel).getD i 0 = velPartial algo step accel i := by
  unfold velTable
  have h1 : i < ((List.range accel.length).map (velPartial algo step accel)).length := by
    simpa using hi
  rw [List.getD_eq_getElem?_getD, List.getElem?_eq_getElem h1]
  simp

theorem setList_concat (L : List ℚ) (f : ℕ → ℚ) (xs : List ℕ) (a : ℕ) :
    setList L f (xs ++ [a]) = (setList L f xs).set a (f a) := by
  rw [setList_append]
  rfl

theorem sum_map_concat (d : ℕ → ℚ) (xs : List ℕ) (a : ℕ) :
    ((xs ++ [a]).map d).sum = (xs.map d).sum + d a := by
  rw [List.map_append, List.sum_append]
  simp

theorem range'_one_concat (k : ℕ) :
    List.range' 1 (k + 1) = List.range' 1 k ++ [k + 1] := by
  have e1 : 1 + 1 * k = k + 1 := by omega
  rw [List.range'_concat, e1]

/-- The sequential velocity loop as a pure fold, in closed form. -/
theorem vel_fold_char (A : List ℚ) (d : ℕ → ℚ) (v : List ℚ) :
    ∀ k : ℕ,
      (List.range' 1 k).foldl
        (fun (p : sim_tables × ℚ) (sec : ℕ) =>
          (sim_tables.mk p.1.accel (p.1.vel.set sec (p.2 + d sec)), p.2 + d sec))
        (sim_tables.mk A v, 0) =
      (sim_tables.mk A
          (setList v (fun i => ((List.range' 1 i).map d).sum) (List.range' 1 k)),
        ((List.range' 1 k).map d).sum)
  | 0 => by simp [setList]
  | k + 1 => by
    rw [range'_one_concat, List.foldl_append, vel_fold_char A d v k,
      setList_concat, sum_map_concat]
    simp only [List.foldl_cons, List.foldl_nil]
    have e2 : ((List.range' 1 (k + 1)).map d).sum =
        ((List.range' 1 k).map d).sum + d (k + 1) := by
      rw [range'_one_concat, sum_map_concat]
    rw [e2]

/-- Phase A of the parallel pipeline as a pure fold, in closed form. -/
theorem phaseA_fold_char (A : List ℚ) (d : ℕ → ℚ) (v : List ℚ) :
    ∀ k : ℕ,
      (List.range' 1 k).foldl
        (fun (t : sim_tables) (sec : ℕ) =>
          sim_tables.mk t.accel (t.vel.set sec (d sec)))
        (sim_tables.mk A v) =
      sim_tables.mk A (setList v d (List.range' 1 k))
  | 0 => by simp [setList]
  | k + 1 => by
    rw [range'_one_concat, List.foldl_append, phaseA_fold_char A d v k,
      setList_concat]
    simp only [List.foldl_cons, List.foldl_nil]

/-- Phase B of the parallel pipeline (the prefix scan) as a pure fold, in
closed form: the running total after the first `i+1` slots. -/
theorem scan_fold_char (A : List ℚ) (L : List ℚ) :
    ∀ k : ℕ,
      (List.range k).foldl
        (fun (p : sim_tables × ℚ) (index : ℕ) =>
          (sim_tables.mk p.1.accel
            (p.1.vel.set index (p.2 + p.1.vel.getD index 0)),
            p.2 + p.1.vel.getD index 0))
        (sim_tables.mk A L, 0) =
      (sim_tables.mk A
          (setList L
            (fun i => ((List.range (i + 1)).map (fun j : ℕ => L.getD j 0)).sum)
            (List.range k)),
        ((List.range k).map (fun j : ℕ => L.getD j 0)).sum)
  | 0 => by simp [setList]
  | k + 1 => by
    rw [List.range_succ, List.foldl_append, scan_fold_char A L k,
      setList_concat, sum_map_concat]
    have hread : (setList L
        (fun i => ((List.range (i + 1)).map (fun j : ℕ => L.getD j 0)).sum)
        (List.range k)).getD k 0 = L.getD k 0 := by
      rw [setList_getD, if_neg]
      intro hmem
      exact absurd (List.mem_range.mp (And.left hmem)) (Nat.lt_irrefl k)
    simp only [List.foldl_cons, List.foldl_nil, hread]
    have e2 : ((List.range (k + 1)).map (fun j : ℕ => L.getD j 0)).sum =
        ((List.range k).map (fun j : ℕ => L.getD j 0)).sum + L.getD k 0 := by
      rw [List.range_succ, sum_map_concat]
    rw [e2]

theorem getElem_eq_getD (L : List ℚ) (i : ℕ) (h : i < L.length) :
    L[i] = L.getD i 0 := by
  rw [List.getD_eq_getElem?_getD, List.getElem?_eq_getElem h]
  rfl

/-- The velocity list written by the sequential loop is the canonical
velocity table. -/
theorem setList_vel_eq_velTable (algo : ALGO) (step : ℕ) (A v : List ℚ)
    (hvlen : v.length = A.length) (hv0 : v.getD 0 0 = 0) :
    setList v
        (fun i => ((List.range' 1 i).map (interval_integral algo step A)).sum)
        (List.range' 1 (A.length - 1)) =
      velTable algo step A := by
  apply List.ext_getElem
  · rw [setList_length, hvlen, velTable_length]
  · intro i h1 h2
    have hi : i < A.length := by
      have := h2
      rw [velTable_length] at this
      exact this
    rw [getElem_eq_getD _ _ h1, getElem_eq_getD _ _ h2, setList_getD,
      velTable_getD algo step A i hi]
    by_cases h0 : 1 ≤ i
    · rw [if_pos]
      · rfl
      · constructor
        · rw [List.mem_range'_1]
          omega
        · omega
    · have hz : i = 0 := by omega
      subst hz
      rw [if_neg]
      · rw [hv0]
        rfl
      · intro hmem
        have := List.mem_range'_1.mp (And.left hmem)
        omega

/-- The monadic sequential velocity loop evaluates to the canonical
closed form. -/
theorem seq_vel_phase (algo : ALGO) (step : ℕ) (A v : List ℚ)
    (hstep : 1 ≤ step) :
    (List.range' 1 (A.length - 1)).foldlM
      (fun (p : sim_tables × ℚ) (sec : ℕ) => do
        let d ← select_summation algo ((sec : ℚ) - 1) (sec : ℚ) step
          (calc_linear_interpolation p.1.accel)
        pure (sim_tables.mk p.1.accel (p.1.vel.set sec (p.2 + d)), p.2 + d))
      (sim_tables.mk A v, 0) =
    some (sim_tables.mk A
        (setList v
          (fun i => ((List.range' 1 i).map (interval_integral algo step A)).sum)
          (List.range' 1 (A.length - 1))),
      ((List.range' 1 (A.length - 1)).map (interval_integral algo step A)).sum) := by
  rw [foldlM_some_inv (fun p : sim_tables × ℚ => p.1.accel = A) _
    (fun (p : sim_tables × ℚ) (sec : ℕ) =>
      (sim_tables.mk p.1.accel
        (p.1.vel.set sec (p.2 + interval_integral algo step A sec)),
        p.2 + interval_integral algo step A sec))
    (List.range' 1 (A.length - 1)) (sim_tables.mk A v, 0) rfl
    (fun p sec hsec hp => by
      have hb := List.mem_range'_1.mp hsec
      rw [hp, interval_summation_eq_some algo step A sec hstep (And.left hb)
        (by omega)]
      simp [hp])
    (fun p sec hsec hp => hp)]
  rw [vel_fold_char A (interval_integral algo step A) v (A.length - 1)]

/-- The monadic parallel phase-A loop evaluates to the canonical closed
form. -/
theorem omp_phaseA_phase (algo : ALGO) (step : ℕ) (A v : List ℚ)
    (hstep : 1 ≤ step) :
    (List.range' 1 (A.length - 1)).foldlM
      (fun (t : sim_tables) (sec : ℕ) => do
        let d ← select_summation algo ((sec : ℚ) - 1) (sec : ℚ) step
          (calc_linear_interpolation t.accel)
        pure (sim_tables.mk t.accel (t.vel.set sec d)))
      (sim_tables.mk A v) =
    some (sim_tables.mk A
      (setList v (interval_integral algo step A) (List.range' 1 (A.length - 1)))) := by
  rw [foldlM_some_inv (fun t : sim_tables => t.accel = A) _
    (fun (t : sim_tables) (sec : ℕ) =>
      sim_tables.mk t.accel (t.vel.set sec (interval_integral algo step A sec)))
    (List.range' 1 (A.length - 1)) (sim_tables.mk A v) rfl
    (fun t sec hsec ht => by
      have hb := List.mem_range'_1.mp hsec
      rw [ht, interval_summation_eq_some algo step A sec hstep (And.left hb)
        (by omega)]
      simp [ht])
    (fun t sec hsec ht => ht)]
  rw [phaseA_fold_char A (interval_integral algo step A) v (A.length - 1)]

/-- The monadic position loop evaluates to the sum of the per-interval
integrals over the velocity table. -/
theorem pos_phase (algo : ALGO) (step : ℕ) (V : List ℚ) (m : ℕ)
    (hstep : 1 ≤ step) (hm : m + 1 ≤ V.length) :
    (List.range' 1 m).foldlM
      (fun (pos : ℚ) (sec : ℕ) =>
        (select_summation algo ((sec : ℚ) - 1) (sec : ℚ) step
          (calc_linear_interpolation V)).bind (fun d => pure (pos + d)))
      (0 : ℚ) =
    some (((List.range' 1 m).map (interval_integral algo step V)).sum) := by
  rw [foldlM_some_inv (fun _ : ℚ => True) _
    (fun (pos : ℚ) (sec : ℕ) => pos + interval_integral algo step V sec)
    (List.range' 1 m) 0 trivial
    (fun pos sec hsec _ => by
      have hb := List.mem_range'_1.mp hsec
      rw [interval_summation_eq_some algo step V sec hstep (And.left hb)
        (by omega)]
      rfl)
    (fun _ _ _ _ => trivial)]
  rw [foldl_add_eq_sum]
  simp

/-- The slot contents after phase A: slot 0 still holds the zero written
before the benchmark loop, slot `j ≥ 1` holds the interval integral. -/
theorem phaseA_list_getD (algo : ALGO) (step : ℕ) (A v : List ℚ)
    (hvlen : v.length = A.length) (hv0 : v.getD 0 0 = 0) (j : ℕ)
    (hj : j < A.length) :
    (setList v (interval_integral algo step A)
        (List.range' 1 (A.length - 1))).getD j 0 =
      if j = 0 then 0 else interval_integral algo step A j := by
  rw [setList_getD]
  by_cases hz : j = 0
  · subst hz
    rw [if_pos rfl, if_neg]
    · exact hv0
    · intro hmem
      have := List.mem_range'_1.mp (And.left hmem)
      omega
  · rw [if_neg hz, if_pos]
    constructor
    · rw [List.mem_range'_1]
      omega
    · omega

/-- A prefix of the phase-B running total equals the sequential partial
velocity. -/
theorem scan_val_eq_velPartial (algo : ALGO) (step : ℕ) (A v : List ℚ)
    (hvlen : v.length = A.length) (hv0 : v.getD 0 0 = 0) (i : ℕ)
    (hi : i < A.length) :
    ((List.range (i + 1)).map
      (fun j : ℕ => (setList v (interval_integral algo step A)
        (List.range' 1 (A.length - 1))).getD j 0)).sum =
    velPartial algo step A i := by
  have hsplit : List.range (i + 1) = 0 :: List.range' 1 i := by
    rw [List.range_eq_range', List.range'_succ]
  rw [hsplit]
  simp only [List.map_cons, List.sum_cons]
  rw [phaseA_list_getD algo step A v hvlen hv0 0 (by omega), if_pos rfl]
  have hcong : (List.range' 1 i).map
      (fun j : ℕ => (setList v (interval_integral algo step A)
        (List.range' 1 (A.length - 1))).getD j 0) =
      (List.range' 1 i).map (interval_integral algo step A) := by
    apply List.map_congr_left
    intro j hj
    have hbj := List.mem_range'_1.mp hj
    rw [phaseA_list_getD algo step A v hvlen hv0 j (by omega),
      if_neg (by omega)]
  rw [hcong]
  unfold velPartial
  ring

/-- The list produced by phase B is the canonical velocity table. -/
theorem scan_list_eq_velTable (algo : ALGO) (step : ℕ) (A v : List ℚ)
    (hvlen : v.length = A.length) (hv0 : v.getD 0 0 = 0) :
    setList
        (setList v (interval_integral algo step A) (List.range' 1 (A.length - 1)))
        (fun i => ((List.range (i + 1)).map
          (fun j : ℕ => (setList v (interval_integral algo step A)
            (List.range' 1 (A.length - 1))).getD j 0)).sum)
        (List.range A.length) =
      velTable algo step A := by
  apply List.ext_getElem
  · rw [setList_length, setList_length, hvlen, velTable_length]
  · intro i h1 h2
    have hi : i < A.length := by
      rw [velTable_length] at h2
      exact h2
    rw [getElem_eq_getD _ _ h1, getElem_eq_getD _ _ h2, setList_getD,
      velTable_getD algo step A i hi]
    rw [if_pos (And.intro (List.mem_range.mpr hi)
      (by rw [setList_length, hvlen]; exact hi))]
    exact scan_val_eq_velPartial algo step A v hvlen hv0 i hi

/-- The final running total of phase B is the final velocity. -/
theorem scan_total_eq (algo : ALGO) (step : ℕ) (A v : List ℚ)
    (hvlen : v.length = A.length) (hv0 : v.getD 0 0 = 0)
    (hlen : 1 ≤ A.length) :
    ((List.range A.length).map
      (fun j : ℕ => (setList v (interval_integral algo step A)
        (List.range' 1 (A.length - 1))).getD j 0)).sum =
    velPartial algo step A (A.length - 1) := by
  have h1 := scan_val_eq_velPartial algo step A v hvlen hv0 (A.length - 1)
    (by omega)
  have he : (A.length - 1) + 1 = A.length := by omega
  rw [he] at h1
  exact h1

/-- One benchmark iteration of the sequential pipeline, in canonical
form. -/
theorem sim_iteration_eq_canonical (algo : ALGO) (step : ℕ) (A v : List ℚ)
    (hstep : 1 ≤ step) (hlen : 1 ≤ A.length) (hvlen : v.length = A.length)
    (hv0 : v.getD 0 0 = 0) :
    sim_iteration algo step (sim_tables.mk A v) =
      some (canonicalResult algo step A) := by
  simp only [sim_iteration]
  rw [seq_vel_phase algo step A v hstep]
  simp only [Option.bind_eq_bind, Option.some_bind]
  rw [setList_vel_eq_velTable algo step A v hvlen hv0]
  have hlen2 : (velTable algo step A).length = A.length :=
    velTable_length algo step A
  rw [hlen2]
  rw [pos_phase algo step (velTable algo step A) (A.length - 1) hstep
    (by rw [velTable_length]; omega)]
  simp only [Option.some_bind]
  rfl

/-- One benchmark iteration of the parallel pipeline, in the same
canonical form. -/
theorem sim_iteration_openmp_eq_canonical (algo : ALGO) (threads step : ℕ)
    (A v : List ℚ) (hstep : 1 ≤ step) (hlen : 1 ≤ A.length)
    (hvlen : v.length = A.length) (hv0 : v.getD 0 0 = 0) :
    sim_iteration_openmp algo threads step (sim_tables.mk A v) =
      some (canonicalResult algo step A) := by
  simp only [sim_iteration_openmp]
  rw [omp_phaseA_phase algo step A v hstep]
  simp only [Option.bind_eq_bind, Option.some_bind]
  have hLA : (setList v (interval_integral algo step A)
      (List.range' 1 (A.length - 1))).length = A.length := by
    rw [setList_length, hvlen]
  rw [hLA]
  rw [scan_fold_char A
    (setList v (interval_integral algo step A) (List.range' 1 (A.length - 1)))
    A.length]
  rw [scan_list_eq_velTable algo step A v hvlen hv0,
    scan_total_eq algo step A v hvlen hv0 hlen]
  have hlen2 : (velTable algo step A).length = A.length :=
    velTable_length algo step A
  rw [hlen2]
  dsimp only
  rw [pos_phase algo step (velTable algo step A) (A.length - 1) hstep
    (by rw [velTable_length]; omega)]
  simp only [Option.some_bind]
  rfl

/-! ### The benchmark loops -/

theorem run_fold_fix_seq (algo : ALGO) (step : ℕ) (C : sim_tables × ℚ × ℚ)
    (hfix : sim_iteration algo step C.1 = some C) :
    ∀ ys : List ℕ,
      ys.foldlM
        (fun (p : sim_tables × ℚ × ℚ) (_c : ℕ) => sim_iteration algo step p.1)
        C = some C
  | [] => rfl
  | y :: tl => by
    rw [List.foldlM_cons]
    simp only [hfix, Option.bind_eq_bind, Option.some_bind]
    exact run_fold_fix_seq algo step C hfix tl

theorem run_fold_fix_omp (algo : ALGO) (threads step : ℕ) (C : sim_tables × ℚ × ℚ)
    (hfix : sim_iteration_openmp algo threads step C.1 = some C) :
    ∀ ys : List ℕ,
      ys.foldlM
        (fun (p : sim_tables × ℚ × ℚ) (_c : ℕ) =>
          sim_iteration_openmp algo threads step p.1)
        C = some C
  | [] => rfl
  | y :: tl => by
    rw [List.foldlM_cons]
    simp only [hfix, Option.bind_eq_bind, Option.some_bind]
    exact run_fold_fix_omp algo threads step C hfix tl

theorem garbage_set_length (A garbage : List ℚ) (hglen : garbage.length = A.length) :
    (garbage.set 0 0).length = A.length := by
  rw [List.length_set, hglen]

theorem garbage_set_getD (garbage : List ℚ) (hg : 0 < garbage.length) :
    (garbage.set 0 0).getD 0 0 = 0 := by
  simp [List.getD_eq_getElem?_getD, List.getElem?_set, hg]

theorem velTable_getD_zero (algo : ALGO) (step : ℕ) (A : List ℚ)
    (hlen : 1 ≤ A.length) : (velTable algo step A).getD 0 0 = 0 := by
  rw [velTable_getD algo step A 0 (by omega)]
  rfl

/-- The whole sequential `run_sim` (any number of benchmark iterations
≥ 1) produces the canonical result. -/
theorem run_sim_eq_canonical (algo : ALGO) (step iterations : ℕ)
    (A garbage : List ℚ) (hstep : 1 ≤ step) (hlen : 1 ≤ A.length)
    (hglen : garbage.length = A.length) (hiter : 1 ≤ iterations) :
    run_sim algo step iterations A garbage =
      some (canonicalResult algo step A) := by
  have hfirst : sim_iteration algo step (sim_tables.mk A (garbage.set 0 0)) =
      some (canonicalResult algo step A) :=
    sim_iteration_eq_canonical algo step A (garbage.set 0 0) hstep hlen
      (garbage_set_length A garbage hglen)
      (garbage_set_getD garbage (by omega))
  have hfix : sim_iteration algo step (canonicalResult algo step A).1 =
      some (canonicalResult algo step A) := by
    show sim_iteration algo step (sim_tables.mk A (velTable algo step A)) = _
    exact sim_iteration_eq_canonical algo step A (velTable algo step A) hstep
      hlen (velTable_length algo step A) (velTable_getD_zero algo step A hlen)
  unfold run_sim
  rcases hl : List.range iterations with _ | ⟨y, tl⟩
  · exfalso
    have := List.range_eq_nil.mp hl
    omega
  · rw [List.foldlM_cons]
    simp only [hfirst, Option.bind_eq_bind, Option.some_bind]
    exact run_fold_fix_seq algo step (canonicalResult algo step A) hfix tl

/-- The whole parallel `run_sim_openmp` produces the same canonical
result, for every thread count. -/
theorem run_sim_openmp_eq_canonical (algo : ALGO) (threads step iterations : ℕ)
    (A garbage : List ℚ) (hstep : 1 ≤ step) (hlen : 1 ≤ A.length)
    (hglen : garbage.length = A.length) (hiter : 1 ≤ iterations) :
    run_sim_openmp algo threads step iterations A garbage =
      some (canonicalResult algo step A) := by
  have hfirst : sim_iteration_openmp algo threads step
      (sim_tables.mk A (garbage.set 0 0)) =
      some (canonicalResult algo step A) :=
    sim_iteration_openmp_eq_canonical algo threads step A (garbage.set 0 0)
      hstep hlen (garbage_set_length A garbage hglen)
      (garbage_set_getD garbage (by omega))
  have hfix : sim_iteration_openmp algo threads step (canonicalResult algo step A).1 =
      some (canonicalResult algo step A) := by
    show sim_iteration_openmp algo threads step
      (sim_tables.mk A (velTable algo step A)) = _
    exact sim_iteration_openmp_eq_canonical algo threads step A
      (velTable algo step A) hstep hlen (velTable_length algo step A)
      (velTable_getD_zero algo step A hlen)
  unfold run_sim_openmp
  rcases hl : List.range iterations with _ | ⟨y, tl⟩
  · exfalso
    have := List.range_eq_nil.mp hl
    omega
  · rw [List.foldlM_cons]
    simp only [hfirst, Option.bind_eq_bind, Option.some_bind]
    exact run_fold_fix_omp algo threads step (canonicalResult algo step A) hfix tl

/-! ### Claims C1 and C4 -/

/-- C1: for every validated configuration (any rule, subdivision count
≥ 1, iteration count ≥ 1, any thread count) and every acceleration table
of length ≥ 1, the sequential `run_sim` and the parallel
`run_sim_openmp` produce identical results — the same velocity table,
final velocity and final position — exactly, under the exact-arithmetic
embedding, regardless of the (independently arbitrary) uninitialised
contents of the two `malloc`ed velocity buffers. -/
theorem C1_run_sim_openmp_equiv (algo : ALGO) (threads step iterations : ℕ)
    (A garbage garbage' : List ℚ) (hstep : 1 ≤ step) (hlen : 1 ≤ A.length)
    (hglen : garbage.length = A.length) (hglen' : garbage'.length = A.length)
    (hiter : 1 ≤ iterations) :
    run_sim algo step iterations A garbage =
      run_sim_openmp algo threads step iterations A garbage' := by
  rw [run_sim_eq_canonical algo step iterations A garbage hstep hlen hglen hiter,
    run_sim_openmp_eq_canonical algo threads step iterations A garbage' hstep
      hlen hglen' hiter]

/-- C1 witness: both pipelines evaluated on the table `[0, 1, 2, 3]`,
rule `LEFT_RIEMANN`, one subdivision, one benchmark iteration, two
threads, with different garbage in the two velocity buffers. -/
theorem C1_run_sim_openmp_equiv_witness :
    (1 ≤ 1 ∧ 1 ≤ ([(0 : ℚ), 1, 2, 3]).length ∧
      ([(7 : ℚ), 7, 7, 7]).length = ([(0 : ℚ), 1, 2, 3]).length ∧
      ([(9 : ℚ), 8, 7, 6]).length = ([(0 : ℚ), 1, 2, 3]).length) ∧
    run_sim ALGO.LEFT_RIEMANN 1 1 [(0 : ℚ), 1, 2, 3] [(7 : ℚ), 7, 7, 7] =
      run_sim_openmp ALGO.LEFT_RIEMANN 2 1 1 [(0 : ℚ), 1, 2, 3] [(9 : ℚ), 8, 7, 6] :=
  And.intro (And.intro (by norm_num) (And.intro (by norm_num)
    (And.intro (by norm_num) (by norm_num))))
    (C1_run_sim_openmp_equiv ALGO.LEFT_RIEMANN 2 1 1 [(0 : ℚ), 1, 2, 3]
      [(7 : ℚ), 7, 7, 7] [(9 : ℚ), 8, 7, 6] (by norm_num) (by norm_num)
      (by norm_num) (by norm_num) (by norm_num))

/-- C4: under a validated configuration (subdivision count ≥ 1) and an
acceleration table of length ≥ 1, no table access of a whole pipeline run
(either pipeline, any number of benchmark iterations) ever reaches the
out-of-bounds error exit of `get_lut_index`: both runs return a result
rather than the `none` that models the error exit. -/
theorem C4_no_oob_access (algo : ALGO) (threads step iterations : ℕ)
    (A garbage : List ℚ) (hstep : 1 ≤ step) (hlen : 1 ≤ A.length)
    (hglen : garbage.length = A.length) :
    (run_sim algo step iterations A garbage).isSome ∧
      (run_sim_openmp algo threads step iterations A garbage).isSome := by
  cases iterations with
  | zero => exact And.intro rfl rfl
  | succ it =>
    constructor
    · rw [run_sim_eq_canonical algo step (it + 1) A garbage hstep hlen hglen
        (by omega)]
      rfl
    · rw [run_sim_openmp_eq_canonical algo threads step (it + 1) A garbage
        hstep hlen hglen (by omega)]
      rfl

/-- C4 witness: both pipelines return a value on the table `[0, 1, 2, 3]`
with rule `SIMPSONS`, three subdivisions, two benchmark iterations. -/
theorem C4_no_oob_access_witness :
    (1 ≤ 3 ∧ 1 ≤ ([(0 : ℚ), 1, 2, 3]).length ∧
      ([(7 : ℚ), 7, 7, 7]).length = ([(0 : ℚ), 1, 2, 3]).length) ∧
    (run_sim ALGO.SIMPSONS 3 2 [(0 : ℚ), 1, 2, 3] [(7 : ℚ), 7, 7, 7]).isSome ∧
      (run_sim_openmp ALGO.SIMPSONS 2 3 2 [(0 : ℚ), 1, 2, 3]
        [(7 : ℚ), 7, 7, 7]).isSome :=
  And.intro (And.intro (by norm_num) (And.intro (by norm_num) (by norm_num)))
    (C4_no_oob_access ALGO.SIMPSONS 2 3 2 [(0 : ℚ), 1, 2, 3] [(7 : ℚ), 7, 7, 7]
      (by norm_num) (by norm_num) (by norm_num))

/-! ### Claims C5 and C7 -/

/-- C5: the sequential pipeline on acceleration table `[0, 1, 2, 3]` with
rule `LEFT_RIEMANN` and one subdivision produces the intermediate
velocity table `[0, 0, 1, 3]`, final velocity `3`, final position `1` —
for any benchmark iteration count ≥ 1 and any garbage in the velocity
buffer. -/
theorem C5_concrete_left_riemann_run (garbage : List ℚ) (iterations : ℕ)
    (hglen : garbage.length = 4) (hiter : 1 ≤ iterations) :
    run_sim ALGO.LEFT_RIEMANN 1 iterations [(0 : ℚ), 1, 2, 3] garbage =
      some (sim_tables.mk [(0 : ℚ), 1, 2, 3] [(0 : ℚ), 0, 1, 3], 3, 1) := by
  rw [run_sim_eq_canonical ALGO.LEFT_RIEMANN 1 iterations [(0 : ℚ), 1, 2, 3]
    garbage (by norm_num) (by norm_num) (by rw [hglen]; rfl) hiter]
  norm_num [canonicalResult, velTable, velPartial, posTotal, interval_integral,
    select_summation, left_riemann, calc_linear_interpolation, get_lut_index,
    ratTrunc, List.range_eq_range', List.range', List.foldlM_cons,
    List.foldlM_nil, Option.bind_eq_bind, Option.some_bind, Option.pure_def,
    (show ((2 : ℤ)).toNat = 2 from rfl), List.getElem_cons_zero,
    List.getElem_cons_succ]

/-- C5 witness: the run instantiated with garbage `[7, 7, 7, 7]` and one
benchmark iteration. -/
theorem C5_concrete_left_riemann_run_witness :
    (([(7 : ℚ), 7, 7, 7]).length = 4 ∧ 1 ≤ 1) ∧
    run_sim ALGO.LEFT_RIEMANN 1 1 [(0 : ℚ), 1, 2, 3] [(7 : ℚ), 7, 7, 7] =
      some (sim_tables.mk [(0 : ℚ), 1, 2, 3] [(0 : ℚ), 0, 1, 3], 3, 1) :=
  And.intro (And.intro (by norm_num) (by norm_num))
    (C5_concrete_left_riemann_run [(7 : ℚ), 7, 7, 7] 1 (by norm_num)
      (by norm_num))

/-- C7: on an acceleration table of length 1 both pipelines perform no
integration (their loops over `1..len` are empty) and report final
velocity `0` and final position `0`, for any subdivision count and any
iteration count ≥ 1. -/
theorem C7_length_one_run (algo : ALGO) (threads step iterations : ℕ) (a : ℚ)
    (garbage : List ℚ) (hglen : garbage.length = 1) (hiter : 1 ≤ iterations) :
    run_sim algo step iterations [a] garbage =
      some (sim_tables.mk [a] [(0 : ℚ)], 0, 0) ∧
    run_sim_openmp algo threads step iterations [a] garbage =
      some (sim_tables.mk [a] [(0 : ℚ)], 0, 0) := by
  obtain ⟨g0, rfl⟩ : ∃ g0, garbage = [g0] := by
    cases garbage with
    | nil => simp at hglen
    | cons g0 tl =>
      cases tl with
      | nil => exact ⟨g0, rfl⟩
      | cons b tl2 => simp at hglen
  have hseq : sim_iteration algo step (sim_tables.mk [a] [(0 : ℚ)]) =
      some (sim_tables.mk [a] [(0 : ℚ)], 0, 0) := by
    simp [sim_iteration]
  have homp : sim_iteration_openmp algo threads step
      (sim_tables.mk [a] [(0 : ℚ)]) =
      some (sim_tables.mk [a] [(0 : ℚ)], 0, 0) := by
    simp [sim_iteration_openmp, List.range_eq_range', List.range']
  constructor
  · unfold run_sim
    rcases hl : List.range iterations with _ | ⟨y, tl⟩
    · exfalso
      have := List.range_eq_nil.mp hl
      omega
    · rw [List.foldlM_cons]
      simp only [List.set_cons_zero, hseq, Option.bind_eq_bind, Option.some_bind]
      exact run_fold_fix_seq algo step
        (sim_tables.mk [a] [(0 : ℚ)], 0, 0) hseq tl
  · unfold run_sim_openmp
    rcases hl : List.range iterations with _ | ⟨y, tl⟩
    · exfalso
      have := List.range_eq_nil.mp hl
      omega
    · rw [List.foldlM_cons]
      simp only [List.set_cons_zero, homp, Option.bind_eq_bind, Option.some_bind]
      exact run_fold_fix_omp algo threads step
        (sim_tables.mk [a] [(0 : ℚ)], 0, 0) homp tl

/-- C7 witness: the length-1 run at table `[5]`, rule `TRAPEZOIDAL`, ten
subdivisions, two iterations, three threads, garbage `[9]`. -/
theorem C7_length_one_run_witness :
    (([(9 : ℚ)]).length = 1 ∧ 1 ≤ 2) ∧
    (run_sim ALGO.TRAPEZOIDAL 10 2 [(5 : ℚ)] [(9 : ℚ)] =
      some (sim_tables.mk [(5 : ℚ)] [(0 : ℚ)], 0, 0) ∧
    run_sim_openmp ALGO.TRAPEZOIDAL 3 10 2 [(5 : ℚ)] [(9 : ℚ)] =
      some (sim_tables.mk [(5 : ℚ)] [(0 : ℚ)], 0, 0)) :=
  And.intro (And.intro (by norm_num) (by norm_num))
    (C7_length_one_run ALGO.TRAPEZOIDAL 3 10 2 5 [(9 : ℚ)] (by norm_num)
      (by norm_num))

/-! ### Claim C10: the acceleration table is never written -/

/-- An invariant preserved by every successful step of an `Option` fold is
preserved by the whole fold. -/
theorem foldlM_option_inv {σ α : Type} (I : σ → Prop) (F : σ → α → Option σ)
    (hpres : ∀ s a s', F s a = some s' → I s → I s') :
    ∀ (xs : List α) (s0 out : σ), xs.foldlM F s0 = some out → I s0 → I out
  | [], s0, out, h, h0 => by
    rw [List.foldlM_nil] at h
    simp only [Option.pure_def, Option.some.injEq] at h
    rw [← h]
    exact h0
  | x :: tl, s0, out, h, h0 => by
    rw [List.foldlM_cons] at h
    simp only [Option.bind_eq_bind] at h
    rcases Option.bind_eq_some.mp h with ⟨s1, hF, htl⟩
    exact foldlM_option_inv I F hpres tl s1 out htl (hpres s0 x s1 hF h0)

/-- The phase-B scan only rewrites the velocity table. -/
theorem scan_foldl_accel :
    ∀ (xs : List ℕ) (p : sim_tables × ℚ),
      ((xs.foldl
        (fun (p : sim_tables × ℚ) (index : ℕ) =>
          (sim_tables.mk p.1.accel
            (p.1.vel.set index (p.2 + p.1.vel.getD index 0)),
            p.2 + p.1.vel.getD index 0)) p).1).accel = p.1.accel
  | [], _ => rfl
  | x :: tl, p => by
    rw [List.foldl_cons]
    exact scan_foldl_accel tl _

/-- A successful sequential iteration returns the acceleration table it
was given. -/
theorem sim_iteration_accel_frame (algo : ALGO) (step : ℕ) (t : sim_tables)
    (out : sim_tables × ℚ × ℚ) (h : sim_iteration algo step t = some out) :
    out.1.accel = t.accel := by
  simp only [sim_iteration, Option.bind_eq_bind] at h
  rcases Option.bind_eq_some.mp h with ⟨velr, hv, h2⟩
  rcases Option.bind_eq_some.mp h2 with ⟨pos, hp, h3⟩
  simp only [Option.pure_def, Option.some.injEq] at h3
  have hacc : velr.1.accel = t.accel := by
    refine foldlM_option_inv (fun p : sim_tables × ℚ => p.1.accel = t.accel) _
      ?_ _ _ _ hv rfl
    intro s c s' hF hI
    simp only [Option.bind_eq_bind] at hF
    rcases Option.bind_eq_some.mp hF with ⟨d, _, hd⟩
    simp only [Option.pure_def, Option.some.injEq] at hd
    rw [← hd]
    exact hI
  rw [← h3]
  exact hacc

/-- A successful parallel iteration returns the acceleration table it was
given. -/
theorem sim_iteration_openmp_accel_frame (algo : ALGO) (threads step : ℕ)
    (t : sim_tables) (out : sim_tables × ℚ × ℚ)
    (h : sim_iteration_openmp algo threads step t = some out) :
    out.1.accel = t.accel := by
  simp only [sim_iteration_openmp, Option.bind_eq_bind] at h
  rcases Option.bind_eq_some.mp h with ⟨stA, hA, h2⟩
  rcases Option.bind_eq_some.mp h2 with ⟨pos, hp, h3⟩
  simp only [Option.pure_def, Option.some.injEq] at h3
  have hAacc : stA.accel = t.accel := by
    refine foldlM_option_inv (fun tt : sim_tables => tt.accel = t.accel) _
      ?_ _ _ _ hA rfl
    intro s c s' hF hI
    simp only [Option.bind_eq_bind] at hF
    rcases Option.bind_eq_some.mp hF with ⟨d, _, hd⟩
    simp only [Option.pure_def, Option.some.injEq] at hd
    rw [← hd]
    exact hI
  rw [← h3]
  exact (scan_foldl_accel (List.range stA.vel.length) (stA, 0)).trans hAacc

/-- C10: a full pipeline run — either pipeline, all benchmark iterations
included — returns the input acceleration table unchanged; only the
separately allocated velocity table and the scalar accumulators are
written. -/
theorem C10_accel_table_preserved (algo : ALGO) (threads step iterations : ℕ)
    (A garbage : List ℚ) :
    (∀ out : sim_tables × ℚ × ℚ,
      run_sim algo step iterations A garbage = some out → out.1.accel = A) ∧
    (∀ out : sim_tables × ℚ × ℚ,
      run_sim_openmp algo threads step iterations A garbage = some out →
        out.1.accel = A) := by
  constructor
  · intro out h
    unfold run_sim at h
    refine foldlM_option_inv (fun p : sim_tables × ℚ × ℚ => p.1.accel = A) _
      ?_ _ _ _ h rfl
    intro s c s' hF hI
    rw [sim_iteration_accel_frame algo step s.1 s' hF, hI]
  · intro out h
    unfold run_sim_openmp at h
    refine foldlM_option_inv (fun p : sim_tables × ℚ × ℚ => p.1.accel = A) _
      ?_ _ _ _ h rfl
    intro s c s' hF hI
    rw [sim_iteration_openmp_accel_frame algo threads step s.1 s' hF, hI]

/-- C10 witness: concrete runs of both pipelines on the table `[4]`,
whose successful outputs carry the table back unchanged. -/
theorem C10_accel_table_preserved_witness :
    (run_sim ALGO.LEFT_RIEMANN 1 1 [(4 : ℚ)] [(8 : ℚ)] =
      some (sim_tables.mk [(4 : ℚ)] [(0 : ℚ)], 0, 0) ∧
    run_sim_openmp ALGO.LEFT_RIEMANN 2 1 1 [(4 : ℚ)] [(8 : ℚ)] =
      some (sim_tables.mk [(4 : ℚ)] [(0 : ℚ)], 0, 0)) ∧
    (sim_tables.mk [(4 : ℚ)] [(0 : ℚ)], (0 : ℚ), (0 : ℚ)).1.accel = [(4 : ℚ)] := by
  have hrun : run_sim ALGO.LEFT_RIEMANN 1 1 [(4 : ℚ)] [(8 : ℚ)] =
      some (sim_tables.mk [(4 : ℚ)] [(0 : ℚ)], 0, 0) := by
    simp [run_sim, sim_iteration, List.range_eq_range', List.range']
  have hrun' : run_sim_openmp ALGO.LEFT_RIEMANN 2 1 1 [(4 : ℚ)] [(8 : ℚ)] =
      some (sim_tables.mk [(4 : ℚ)] [(0 : ℚ)], 0, 0) := by
    simp [run_sim_openmp, sim_iteration_openmp, List.range_eq_range',
      List.range']
  exact And.intro (And.intro hrun hrun')
    ((C10_accel_table_preserved ALGO.LEFT_RIEMANN 2 1 1 [(4 : ℚ)]
      [(8 : ℚ)]).1 _ hrun)

end TrainSim
